import Mathlib

/-!
# Verification of the `narr` capture-and-download pipeline

Shallow embedding of the Go sources (`src/main.go`, with the historical
variant in `src/unnamed/part_000`).  Go strings are modelled as lists of
characters (`GoStr`); the relevant parts of the Go standard library that the
pipeline calls (`strings.Contains`, `strconv.Itoa`, `net/url`) are embedded
faithfully for the class of inputs in scope (no percent-encoding, no
userinfo, and no `ForceQuery` marker, none of which the pipeline produces or
depends on).
-/

namespace Narr

/-- Go strings modelled as lists of characters. -/
abbrev GoStr := List Char

/-! ## `strings.Contains` and the URL classifier (`isAudioURL`, main.go:121) -/

/-- Model of Go `strings.Contains s sub`: `sub` occurs as a contiguous
substring of `s`.  Implemented, as in Go, by scanning every suffix of `s`
for `sub` as a prefix. -/
def strContains : GoStr → GoStr → Bool
  | [], sub => sub.isPrefixOf []
  | s@(_ :: t), sub => sub.isPrefixOf s || strContains t sub

/-- The literal pattern `"/range/0-"` from main.go:122. -/
def rangePat : GoStr := "/range/0-".toList

/-- `isAudioURL` (main.go:121-123): `strings.Contains(u, "/range/0-")`,
applied to the whole URL string. -/
def isAudioURL (u : GoStr) : Bool := strContains u rangePat

theorem strContains_iff_substring (s sub : GoStr) :
    strContains s sub = true ↔ sub <:+: s := by
  induction s with
  | nil =>
    simp [strContains, List.isPrefixOf_iff_prefix]
  | cons a t ih =>
    simp only [strContains, Bool.or_eq_true, List.isPrefixOf_iff_prefix, ih]
    exact Iff.symm List.infix_cons_iff

/-! ## `strconv.Itoa` and the generated target paths (main.go:71) -/

/-- Decimal digit characters as emitted by Go `strconv`. -/
def digitChar : Nat → Char
  | 0 => '0' | 1 => '1' | 2 => '2' | 3 => '3' | 4 => '4'
  | 5 => '5' | 6 => '6' | 7 => '7' | 8 => '8' | 9 => '9'
  | _ => '?'

/-- Model of Go `strconv.Itoa` on a non-negative integer (as produced by
`rand.Int()`): emit decimal digits from least significant, accumulating. -/
def itoaAux (n : Nat) (acc : GoStr) : GoStr :=
  if n < 10 then digitChar n :: acc
  else itoaAux (n / 10) (digitChar (n % 10) :: acc)
termination_by n
decreasing_by
  exact Nat.div_lt_self (by omega) (by omega)

/-- `strconv.Itoa` for non-negative input. -/
def itoa (n : Nat) : GoStr := itoaAux n []

/-- The destination file name built at main.go:71:
`"DL-" + strconv.Itoa(id)` where `id` is the generated identifier. -/
def targetPath (id : Nat) : GoStr := "DL-".toList ++ itoa id

theorem itoaAux_eq_append (n : Nat) :
    ∀ acc, itoaAux n acc = itoa n ++ acc := by
  induction n using Nat.strong_induction_on with
  | _ n ih =>
    intro acc
    by_cases h : n < 10
    · rw [itoaAux, if_pos h, itoa, itoaAux, if_pos h]
      simp
    · rw [itoaAux, if_neg h,
        ih (n / 10) (Nat.div_lt_self (by omega) (by omega))]
      conv_rhs =>
        rw [itoa, itoaAux, if_neg h,
          ih (n / 10) (Nat.div_lt_self (by omega) (by omega))]
      simp

/-- Inverse of `digitChar` on digits. -/
def digitVal (c : Char) : Nat :=
  match c with
  | '0' => 0 | '1' => 1 | '2' => 2 | '3' => 3 | '4' => 4
  | '5' => 5 | '6' => 6 | '7' => 7 | '8' => 8 | '9' => 9
  | _ => 0

theorem digitVal_digitChar (d : Nat) (h : d < 10) :
    digitVal (digitChar d) = d := by
  interval_cases d <;> rfl

/-- Read a digit string back as a number (most significant first). -/
def fromDigits (a : Nat) (l : GoStr) : Nat :=
  l.foldl (fun acc c => 10 * acc + digitVal c) a

theorem fromDigits_append (a : Nat) (l₁ l₂ : GoStr) :
    fromDigits a (l₁ ++ l₂) = fromDigits (fromDigits a l₁) l₂ := by
  simp [fromDigits, List.foldl_append]

theorem fromDigits_itoa (n : Nat) :
    ∀ a, fromDigits a (itoa n) = a * 10 ^ (itoa n).length + n := by
  induction n using Nat.strong_induction_on with
  | _ n ih =>
    intro a
    by_cases h : n < 10
    · rw [itoa, itoaAux, if_pos h]
      simp only [fromDigits, List.foldl_cons, List.foldl_nil,
        List.length_cons, List.length_nil]
      rw [digitVal_digitChar n h]
      ring
    · have hrw : itoa n = itoa (n / 10) ++ [digitChar (n % 10)] := by
        rw [itoa, itoaAux, if_neg h, itoaAux_eq_append]
      rw [hrw, fromDigits_append,
        ih (n / 10) (Nat.div_lt_self (by omega) (by omega))]
      simp only [fromDigits, List.foldl_cons, List.foldl_nil,
        List.length_append, List.length_cons, List.length_nil]
      rw [digitVal_digitChar (n % 10) (Nat.mod_lt n (by omega))]
      have hn : 10 * (n / 10) + n % 10 = n := Nat.div_add_mod n 10
      ring_nf
      omega

theorem itoa_injective : Function.Injective itoa := by
  intro m n h
  have hm := fromDigits_itoa m 0
  have hn := fromDigits_itoa n 0
  rw [h] at hm
  simp only [Nat.zero_mul, Nat.zero_add] at hm hn
  omega

theorem targetPath_injective : Function.Injective targetPath := by
  intro m n h
  have : itoa m = itoa n := by
    simpa [targetPath] using h
  exact itoa_injective this

/-! ## Model of Go `net/url` (`url.Parse` / `URL.String`)

The model covers the URL forms the pipeline processes: it omits
percent-escaping, userinfo (`user@`), host/port validation and the
`ForceQuery` marker, none of which change the components the claims are
about.  Everything else follows `net/url`'s `parse(rawURL, false)` and
`URL.String` line by line. -/

/-- A parsed URL, mirroring the fields of Go's `url.URL` that the pipeline
touches.  `host` includes the optional port, exactly as Go's `URL.Host`
does. -/
structure GoURL where
  scheme : GoStr
  opaq : GoStr
  host : GoStr
  path : GoStr
  rawQuery : GoStr
  fragment : GoStr
  omitHost : Bool
deriving Repr, DecidableEq

/-- The parse failures `url.Parse` can report in the modelled subset. -/
inductive URLError where
  /-- "net/url: invalid control character in URL" -/
  | ctlChar
  /-- "missing protocol scheme" -/
  | missingScheme
  /-- "first path segment in URL cannot contain colon" -/
  | colonInFirstSegment
deriving Repr, DecidableEq

/-- Split a string at the first occurrence of `c` (Go `strings.Cut`):
the part before, and `some` part after when `c` occurs. -/
def splitFirst (c : Char) : GoStr → GoStr × Option GoStr
  | [] => ([], none)
  | a :: t =>
    if a = c then ([], some t)
    else (a :: (splitFirst c t).1, (splitFirst c t).2)

/-- Go `ContainsCtlByte`: byte below 0x20 or equal to 0x7f. -/
def isCtlChar (c : Char) : Bool := c.toNat < 32 || c.toNat == 127

def containsCtl (s : GoStr) : Bool := s.any isCtlChar

/-- ASCII letter, as tested by `getScheme`. -/
def isAlphaChar (c : Char) : Bool :=
  (97 ≤ c.toNat && c.toNat ≤ 122) || (65 ≤ c.toNat && c.toNat ≤ 90)

/-- The extra scheme characters `getScheme` accepts after the first:
digits, `+`, `-`, `.`. -/
def isSchemeExtra (c : Char) : Bool :=
  (48 ≤ c.toNat && c.toNat ≤ 57) || c = '+' || c = '-' || c = '.'

def isSchemeChar (c : Char) : Bool := isAlphaChar c || isSchemeExtra c

/-- Result of `getScheme`. -/
inductive SchemeRes where
  /-- `:` at position 0: "missing protocol scheme". -/
  | err
  /-- No scheme; the whole input is parsed as the rest. -/
  | noScheme
  /-- A scheme followed by `:` followed by the rest. -/
  | found (scheme rest : GoStr)
deriving Repr, DecidableEq

/-- Model of `net/url`'s `getScheme`: scan for a `:` preceded only by
scheme characters, the first of which must be a letter. -/
def findScheme : GoStr → Bool → SchemeRes
  | [], _ => .noScheme
  | c :: t, first =>
    if isAlphaChar c then
      match findScheme t false with
      | .found s rest => .found (c :: s) rest
      | r => r
    else if isSchemeExtra c then
      if first then .noScheme
      else
        match findScheme t false with
        | .found s rest => .found (c :: s) rest
        | r => r
    else if c = ':' then
      if first then .err else .found [] t
    else .noScheme

/-- Go `strings.ToLower` on ASCII (schemes are validated ASCII before
`Parse` lowercases them). -/
def goToLowerChar (c : Char) : Char :=
  if 65 ≤ c.toNat ∧ c.toNat ≤ 90 then Char.ofNat (c.toNat + 32) else c

def goToLower (s : GoStr) : GoStr := s.map goToLowerChar

/-- Cut the authority at the first `/`, keeping the `/` in the remainder,
as `parse` does with `strings.Index(authority, "/")`. -/
def cutAuthority (l : GoStr) : GoStr × GoStr :=
  match splitFirst '/' l with
  | (p, none) => (p, [])
  | (p, some r) => (p, '/' :: r)

/-- The tail of `url.parse(rest, viaRequest := false)` once fragment,
scheme and query have been cut off: decide between authority, rootless
(opaque) and plain path forms. -/
def parseRest (scheme rest2 rawQuery fragment : GoStr) :
    Except URLError GoURL :=
  if "/".toList.isPrefixOf rest2 then
    if (!scheme.isEmpty || !("///".toList.isPrefixOf rest2)) &&
       "//".toList.isPrefixOf rest2 then
      match cutAuthority (rest2.drop 2) with
      | (authority, rest3) =>
        .ok { scheme := scheme, opaq := [], host := authority,
              path := rest3, rawQuery := rawQuery, fragment := fragment,
              omitHost := false }
    else
      .ok { scheme := scheme, opaq := [], host := [], path := rest2,
            rawQuery := rawQuery, fragment := fragment,
            omitHost := !scheme.isEmpty }
  else
    if !scheme.isEmpty then
      .ok { scheme := scheme, opaq := rest2, host := [], path := [],
            rawQuery := rawQuery, fragment := fragment, omitHost := false }
    else if ((splitFirst '/' rest2).1).contains ':' then
      .error .colonInFirstSegment
    else
      .ok { scheme := scheme, opaq := [], host := [], path := rest2,
            rawQuery := rawQuery, fragment := fragment, omitHost := false }

/-- The body of `url.parse(rest, viaRequest := false)` after the scheme has
been extracted: cut the query at the first `?`, then `parseRest`. -/
def parseAfterScheme (scheme rest1 fragment : GoStr) :
    Except URLError GoURL :=
  match splitFirst '?' rest1 with
  | (rest2, oq) => parseRest scheme rest2 (oq.getD []) fragment

/-- Model of Go `url.Parse`: strip the fragment, reject control characters
in the pre-fragment part, extract and lowercase the scheme, then parse
query/authority/path. -/
def urlParse (s : GoStr) : Except URLError GoURL :=
  match splitFirst '#' s with
  | (rest0, ofrag) =>
    if containsCtl rest0 then .error .ctlChar
    else
      match findScheme rest0 true with
      | .err => .error .missingScheme
      | .noScheme => parseAfterScheme [] rest0 (ofrag.getD [])
      | .found sch rest1 =>
        parseAfterScheme (goToLower sch) rest1 (ofrag.getD [])

/-- `URL.String`: the `scheme:` prefix. -/
def schemeEnc (u : GoURL) : GoStr :=
  if u.scheme.isEmpty then [] else u.scheme ++ [':']

/-- `URL.String`: the `//host` block (written unless the URL is opaque,
the host is omitted, or both host and path are empty). -/
def hostEnc (u : GoURL) : GoStr :=
  if (!u.scheme.isEmpty || !u.host.isEmpty) &&
     !(u.omitHost && u.host.isEmpty) then
    if !u.host.isEmpty || !u.path.isEmpty then '/' :: '/' :: u.host
    else u.host
  else []

/-- `URL.String`: the path, with a `/` joint when a rootless path follows a
host. -/
def pathEnc (u : GoURL) : GoStr :=
  if !u.path.isEmpty && !("/".toList.isPrefixOf u.path) && !u.host.isEmpty
  then '/' :: u.path else u.path

/-- `URL.String`: the part between `scheme:` and `?query` — the opaque
part verbatim when present, otherwise host block plus path. -/
def coreEnc (u : GoURL) : GoStr :=
  if !u.opaq.isEmpty then u.opaq else hostEnc u ++ pathEnc u

def queryEnc (u : GoURL) : GoStr :=
  if u.rawQuery.isEmpty then [] else '?' :: u.rawQuery

def fragEnc (u : GoURL) : GoStr :=
  if u.fragment.isEmpty then [] else '#' :: u.fragment

/-- Model of Go `URL.String` (no userinfo, no escaping, no `ForceQuery`). -/
def urlString (u : GoURL) : GoStr :=
  schemeEnc u ++ coreEnc u ++ queryEnc u ++ fragEnc u

/-- Outcome of a pipeline step that may call `log.Fatal`; `.fatal` models
process termination with the logged cause. -/
inductive PipelineResult (α : Type) where
  | ok (a : α)
  | fatal (e : URLError)
deriving Repr, DecidableEq

/-- `toDownloadableURL` (main.go:127-137): parse the URL, clear its path,
serialize; `log.Fatal` (process exit) on parse failure. -/
def toDownloadableURL (audioURL : GoStr) : PipelineResult GoStr :=
  match urlParse audioURL with
  | .error e => .fatal e
  | .ok u => .ok (urlString { u with path := [] })

/-! ## Structural lemmas about the `net/url` model -/

theorem splitFirst_eq_some (c : Char) :
    ∀ (l p r : GoStr), splitFirst c l = (p, some r) →
      l = p ++ c :: r ∧ c ∉ p := by
  intro l
  induction l with
  | nil => intro p r h; simp [splitFirst] at h
  | cons a t ih =>
    intro p r h
    rw [splitFirst] at h
    by_cases hac : a = c
    · rw [if_pos hac] at h
      injection h with h1 h2
      injection h2 with h2
      subst h1; subst h2; subst hac
      simp
    · rw [if_neg hac] at h
      cases hsf : splitFirst c t with
      | mk p' o =>
        rw [hsf] at h
        injection h with h1 h2
        subst h1
        obtain ⟨ht, hnp⟩ := ih p' r (by rw [hsf]; exact congrArg (Prod.mk p') h2)
        refine ⟨by simp [ht], ?_⟩
        simp only [List.mem_cons, not_or]
        exact ⟨fun hh => hac hh.symm, hnp⟩

theorem splitFirst_eq_none (c : Char) :
    ∀ (l p : GoStr), splitFirst c l = (p, none) → p = l ∧ c ∉ l := by
  intro l
  induction l with
  | nil =>
    intro p h
    injection h with h1 _
    simp [← h1]
  | cons a t ih =>
    intro p h
    rw [splitFirst] at h
    by_cases hac : a = c
    · rw [if_pos hac] at h
      injection h with _ h2
      cases h2
    · rw [if_neg hac] at h
      cases hsf : splitFirst c t with
      | mk p' o =>
        rw [hsf] at h
        injection h with h1 h2
        subst h1
        obtain ⟨ht, hnm⟩ := ih p' (by rw [hsf]; exact congrArg (Prod.mk p') h2)
        refine ⟨by rw [ht], ?_⟩
        simp only [List.mem_cons, not_or]
        exact ⟨fun hh => hac hh.symm, hnm⟩

theorem splitFirst_of_not_mem (c : Char) :
    ∀ (l : GoStr), c ∉ l → splitFirst c l = (l, none) := by
  intro l
  induction l with
  | nil => intro _; rfl
  | cons a t ih =>
    intro h
    simp only [List.mem_cons, not_or] at h
    have hac : ¬ a = c := fun hh => h.1 hh.symm
    simp [splitFirst, if_neg hac, ih h.2]

theorem splitFirst_append (c : Char) :
    ∀ (p r : GoStr), c ∉ p → splitFirst c (p ++ c :: r) = (p, some r) := by
  intro p
  induction p with
  | nil => intro r _; simp [splitFirst]
  | cons a t ih =>
    intro r h
    simp only [List.mem_cons, not_or] at h
    have hac : ¬ a = c := fun hh => h.1 hh.symm
    simp [splitFirst, if_neg hac, ih r h.2]

theorem findScheme_found_spec :
    ∀ (l : GoStr) (first : Bool) (s rest : GoStr),
      findScheme l first = .found s rest →
      l = s ++ ':' :: rest ∧ (∀ c ∈ s, isSchemeChar c = true) ∧
        (first = true → ∃ c t, s = c :: t ∧ isAlphaChar c = true) := by
  intro l
  induction l with
  | nil => intro first s rest h; simp [findScheme] at h
  | cons a t ih =>
    intro first s rest h
    rw [findScheme] at h
    by_cases ha : isAlphaChar a = true
    · rw [if_pos ha] at h
      cases hrec : findScheme t false with
      | found s' r' =>
        rw [hrec] at h
        injection h with hs hr
        subst hs; subst hr
        obtain ⟨ht, hchars, _⟩ := ih false s' r' hrec
        refine ⟨by simp [ht], ?_, ?_⟩
        · intro c hc
          rcases List.mem_cons.mp hc with hc | hc
          · subst hc; simp [isSchemeChar, ha]
          · exact hchars c hc
        · intro _; exact ⟨a, s', rfl, ha⟩
      | err => rw [hrec] at h; cases h
      | noScheme => rw [hrec] at h; cases h
    · rw [if_neg ha] at h
      by_cases hx : isSchemeExtra a = true
      · rw [if_pos hx] at h
        cases first with
        | true => cases h
        | false =>
          simp only [Bool.false_eq_true, if_false] at h
          cases hrec : findScheme t false with
          | found s' r' =>
            rw [hrec] at h
            injection h with hs hr
            subst hs; subst hr
            obtain ⟨ht, hchars, _⟩ := ih false s' r' hrec
            refine ⟨by simp [ht], ?_, ?_⟩
            · intro c hc
              rcases List.mem_cons.mp hc with hc | hc
              · subst hc; simp [isSchemeChar, hx]
              · exact hchars c hc
            · intro hcontra; cases hcontra
          | err => rw [hrec] at h; cases h
          | noScheme => rw [hrec] at h; cases h
      · rw [if_neg hx] at h
        by_cases hcol : a = ':'
        · rw [if_pos hcol] at h
          cases first with
          | true => cases h
          | false =>
            simp only [Bool.false_eq_true, if_false] at h
            cases h
            subst hcol
            exact ⟨rfl, by simp, fun hcontra => by cases hcontra⟩
        · rw [if_neg hcol] at h; cases h

theorem findScheme_of_valid :
    ∀ (s t : GoStr) (first : Bool),
      (∀ c ∈ s, isSchemeChar c = true) →
      (first = true → ∃ c s', s = c :: s' ∧ isAlphaChar c = true) →
      findScheme (s ++ ':' :: t) first = .found s t := by
  intro s
  induction s with
  | nil =>
    intro t first _ hfirst
    cases first with
    | true => obtain ⟨c, s', hcs, _⟩ := hfirst rfl; cases hcs
    | false =>
      rw [List.nil_append, findScheme]
      have h1 : isAlphaChar ':' = false := by decide
      have h2 : isSchemeExtra ':' = false := by decide
      simp [h1, h2]
  | cons a s ih =>
    intro t first hchars hfirst
    have ha : isSchemeChar a = true := hchars a (List.mem_cons_self a s)
    have hrec : findScheme (s ++ ':' :: t) false = .found s t :=
      ih t false (fun c hc => hchars c (List.mem_cons_of_mem a hc))
        (fun hcontra => by cases hcontra)
    rw [List.cons_append, findScheme]
    by_cases halpha : isAlphaChar a = true
    · rw [if_pos halpha, hrec]
    · have hx : isSchemeExtra a = true := by
        rcases Bool.or_eq_true _ _ |>.mp ha with h | h
        · exact absurd h halpha
        · exact h
      rw [if_neg halpha, if_pos hx]
      cases first with
      | true =>
        obtain ⟨c, s', hcs, hc⟩ := hfirst rfl
        cases hcs
        exact absurd hc halpha
      | false => simp [hrec]

theorem findScheme_not_scheme_char (c : Char) (t : GoStr) (first : Bool)
    (h1 : isAlphaChar c = false) (h2 : isSchemeExtra c = false)
    (h3 : ¬ c = ':') : findScheme (c :: t) first = .noScheme := by
  rw [findScheme, if_neg (by simp [h1]), if_neg (by simp [h2]), if_neg h3]

theorem char_toNat_ofNat (n : Nat) (h : n < 0xd800) :
    (Char.ofNat n).toNat = n := by
  have hv : n.isValidChar := Or.inl h
  simp [Char.ofNat, Char.ofNatAux, Char.toNat, hv]
  rfl

theorem goToLowerChar_toNat (c : Char) (h : 65 ≤ c.toNat ∧ c.toNat ≤ 90) :
    (goToLowerChar c).toNat = c.toNat + 32 := by
  rw [goToLowerChar, if_pos h]
  exact char_toNat_ofNat _ (by omega)

theorem goToLowerChar_idem (c : Char) :
    goToLowerChar (goToLowerChar c) = goToLowerChar c := by
  by_cases h : 65 ≤ c.toNat ∧ c.toNat ≤ 90
  · have ht := goToLowerChar_toNat c h
    conv_lhs => rw [goToLowerChar]
    rw [if_neg (by omega)]
  · have hc : goToLowerChar c = c := by rw [goToLowerChar, if_neg h]
    rw [hc]
    exact hc

theorem goToLower_idem (s : GoStr) : goToLower (goToLower s) = goToLower s := by
  simp only [goToLower, List.map_map]
  exact List.map_congr_left fun c _ => goToLowerChar_idem c

theorem char_eq_of_toNat_eq {c d : Char} (h : c.toNat = d.toNat) : c = d := by
  apply Char.eq_of_val_eq
  apply UInt32.eq_of_val_eq
  apply Fin.ext
  exact h

theorem isSchemeExtra_toNat (c : Char) :
    isSchemeExtra c = true ↔
      (48 ≤ c.toNat ∧ c.toNat ≤ 57) ∨ c.toNat = 43 ∨ c.toNat = 45 ∨
        c.toNat = 46 := by
  constructor
  · intro h
    simp only [isSchemeExtra, Bool.or_eq_true, Bool.and_eq_true,
      decide_eq_true_eq] at h
    rcases h with ((h | h) | h) | h
    · exact Or.inl ⟨h.1, h.2⟩
    · subst h; exact Or.inr (Or.inl rfl)
    · subst h; exact Or.inr (Or.inr (Or.inl rfl))
    · subst h; exact Or.inr (Or.inr (Or.inr rfl))
  · intro h
    simp only [isSchemeExtra, Bool.or_eq_true, Bool.and_eq_true,
      decide_eq_true_eq]
    rcases h with h | h | h | h
    · exact Or.inl (Or.inl (Or.inl ⟨h.1, h.2⟩))
    · exact Or.inl (Or.inl (Or.inr (char_eq_of_toNat_eq (by rw [h]; decide))))
    · exact Or.inl (Or.inr (char_eq_of_toNat_eq (by rw [h]; decide)))
    · exact Or.inr (char_eq_of_toNat_eq (by rw [h]; decide))

theorem isAlphaChar_toNat (c : Char) :
    isAlphaChar c = true ↔
      (97 ≤ c.toNat ∧ c.toNat ≤ 122) ∨ (65 ≤ c.toNat ∧ c.toNat ≤ 90) := by
  simp [isAlphaChar]

theorem isSchemeChar_toNat_bounds (c : Char) (h : isSchemeChar c = true) :
    43 ≤ c.toNat ∧ c.toNat ≤ 122 := by
  rcases Bool.or_eq_true _ _ |>.mp h with h | h
  · rcases (isAlphaChar_toNat c).mp h with h | h <;> omega
  · rcases (isSchemeExtra_toNat c).mp h with h | h | h | h <;> omega

theorem isAlphaChar_goToLowerChar (c : Char) (h : isAlphaChar c = true) :
    isAlphaChar (goToLowerChar c) = true := by
  rcases (isAlphaChar_toNat c).mp h with hr | hr
  · have hc : goToLowerChar c = c := by
      rw [goToLowerChar, if_neg (by omega)]
    rw [hc]; exact h
  · have ht := goToLowerChar_toNat c hr
    exact (isAlphaChar_toNat _).mpr (Or.inl (by omega))

theorem isSchemeChar_goToLowerChar (c : Char) (h : isSchemeChar c = true) :
    isSchemeChar (goToLowerChar c) = true := by
  rcases Bool.or_eq_true _ _ |>.mp h with h | h
  · have := isAlphaChar_goToLowerChar c h
    simp [isSchemeChar, this]
  · have hb := (isSchemeExtra_toNat c).mp h
    have hc : goToLowerChar c = c := by
      rw [goToLowerChar, if_neg (by rcases hb with hb | hb | hb | hb <;> omega)]
    rw [hc]
    simp [isSchemeChar, h]

theorem isSchemeChar_ne_of (c : Char) (h : isSchemeChar c = true) :
    ¬ c = ':' ∧ ¬ c = '/' ∧ ¬ c = '?' ∧ ¬ c = '#' ∧ isCtlChar c = false := by
  have hb := isSchemeChar_toNat_bounds c h
  refine ⟨fun he => ?_, fun he => ?_, fun he => ?_, fun he => ?_, ?_⟩
  · subst he; exact absurd h (by decide)
  · subst he; exact absurd h (by decide)
  · subst he; exact absurd h (by decide)
  · subst he; exact absurd h (by decide)
  · simp only [isCtlChar, Bool.or_eq_false_iff, decide_eq_false_iff_not,
      Nat.not_lt, beq_eq_false_iff_ne, ne_eq]
    omega

theorem containsCtl_eq_false_iff (s : GoStr) :
    containsCtl s = false ↔ ∀ c ∈ s, isCtlChar c = false := by
  simp [containsCtl, List.any_eq_false]

/-- Well-formedness of a `urlParse` result: everything re-parsing the
path-cleared serialization depends on. -/
structure ParsedShape (u : GoURL) : Prop where
  scheme_chars : ∀ c ∈ u.scheme, isSchemeChar c = true
  scheme_head : ∀ c s, u.scheme = c :: s → isAlphaChar c = true
  scheme_lower : goToLower u.scheme = u.scheme
  opaq_scheme : u.opaq ≠ [] → u.scheme ≠ []
  opaq_head : ∀ t, u.opaq ≠ '/' :: t
  opaq_clean : ∀ c ∈ u.opaq, ¬ c = '?' ∧ ¬ c = '#' ∧ isCtlChar c = false
  host_clean : ∀ c ∈ u.host,
    ¬ c = '/' ∧ ¬ c = '?' ∧ ¬ c = '#' ∧ isCtlChar c = false
  query_clean : ∀ c ∈ u.rawQuery, ¬ c = '#' ∧ isCtlChar c = false
  opaq_host : u.opaq ≠ [] → u.host = []

theorem cutAuthority_spec (l : GoStr) :
    '/' ∉ (cutAuthority l).1 ∧ ∀ c ∈ (cutAuthority l).1, c ∈ l := by
  rw [cutAuthority]
  cases hsp : splitFirst '/' l with
  | mk p o =>
    cases o with
    | none =>
      obtain ⟨hp, hnm⟩ := splitFirst_eq_none '/' l p hsp
      subst hp
      exact ⟨hnm, fun c hc => hc⟩
    | some r =>
      obtain ⟨hl, hnm⟩ := splitFirst_eq_some '/' l p r hsp
      refine ⟨hnm, fun c hc => ?_⟩
      rw [hl]
      exact List.mem_append_left _ hc

theorem parseRest_shape (scheme rest2 rawQuery fragment : GoStr) (u : GoURL)
    (hs1 : ∀ c ∈ scheme, isSchemeChar c = true)
    (hs2 : ∀ c s, scheme = c :: s → isAlphaChar c = true)
    (hs3 : goToLower scheme = scheme)
    (h2 : ∀ c ∈ rest2, ¬ c = '?' ∧ ¬ c = '#' ∧ isCtlChar c = false)
    (hqc : ∀ c ∈ rawQuery, ¬ c = '#' ∧ isCtlChar c = false)
    (h : parseRest scheme rest2 rawQuery fragment = .ok u) :
    ParsedShape u := by
  rw [parseRest] at h
  by_cases hslash : "/".toList.isPrefixOf rest2 = true
  · rw [if_pos hslash] at h
    by_cases hauth :
        ((!scheme.isEmpty || !("///".toList.isPrefixOf rest2)) &&
          "//".toList.isPrefixOf rest2) = true
    · rw [if_pos hauth] at h
      obtain ⟨hslashfree, hmem⟩ := cutAuthority_spec (rest2.drop 2)
      cases hcut : cutAuthority (rest2.drop 2) with
      | mk authority rest3 =>
        rw [hcut] at h hslashfree hmem
        injection h with h
        subst h
        refine ⟨hs1, hs2, hs3, by simp, by simp, by simp, ?_, hqc, by simp⟩
        intro c hc
        have hmem2 : c ∈ rest2 := List.drop_subset 2 rest2 (hmem c hc)
        exact ⟨fun he => hslashfree (he ▸ hc), (h2 c hmem2).1,
          (h2 c hmem2).2.1, (h2 c hmem2).2.2⟩
    · rw [if_neg hauth] at h
      injection h with h
      subst h
      exact ⟨hs1, hs2, hs3, by simp, by simp, by simp, by simp, hqc, by simp⟩
  · rw [if_neg hslash] at h
    by_cases hsch : (!scheme.isEmpty) = true
    · rw [if_pos hsch] at h
      injection h with h
      subst h
      refine ⟨hs1, hs2, hs3, ?_, ?_, ?_, by simp, hqc, by simp⟩
      · intro _
        simp only [ne_eq]
        intro he
        rw [he] at hsch
        simp only [List.isEmpty_nil, Bool.not_true] at hsch
        cases hsch
      · intro t he
        apply hslash
        have he2 : rest2 = '/' :: t := he
        rw [he2]
        simp [List.isPrefixOf]
      · intro c hc
        exact h2 c hc
    · rw [if_neg hsch] at h
      by_cases hcol : ((splitFirst '/' rest2).1).contains ':' = true
      · rw [if_pos hcol] at h
        cases h
      · rw [if_neg hcol] at h
        injection h with h
        subst h
        exact ⟨hs1, hs2, hs3, by simp, by simp, by simp, by simp, hqc, by
          simp⟩

theorem parseAfterScheme_shape (scheme rest1 fragment : GoStr) (u : GoURL)
    (hs1 : ∀ c ∈ scheme, isSchemeChar c = true)
    (hs2 : ∀ c s, scheme = c :: s → isAlphaChar c = true)
    (hs3 : goToLower scheme = scheme)
    (hr : ∀ c ∈ rest1, ¬ c = '#' ∧ isCtlChar c = false)
    (h : parseAfterScheme scheme rest1 fragment = .ok u) :
    ParsedShape u := by
  rw [parseAfterScheme] at h
  cases hq : splitFirst '?' rest1 with
  | mk rest2 oq =>
    rw [hq] at h
    refine parseRest_shape scheme rest2 (oq.getD []) fragment u hs1 hs2 hs3
      ?_ ?_ h
    · intro c hc
      cases oq with
      | none =>
        obtain ⟨hp, hnm⟩ := splitFirst_eq_none '?' rest1 rest2 hq
        have hmem : c ∈ rest1 := hp ▸ hc
        exact ⟨fun he => (hp ▸ hnm : '?' ∉ rest2) (he ▸ hc), (hr c hmem).1,
          (hr c hmem).2⟩
      | some q =>
        obtain ⟨hp, hnm⟩ := splitFirst_eq_some '?' rest1 rest2 q hq
        have hmem : c ∈ rest1 := by
          rw [hp]; exact List.mem_append_left _ hc
        exact ⟨fun he => hnm (he ▸ hc), (hr c hmem).1, (hr c hmem).2⟩
    · intro c hc
      cases oq with
      | none => simp at hc
      | some q =>
        obtain ⟨hp, _⟩ := splitFirst_eq_some '?' rest1 rest2 q hq
        simp only [Option.getD_some] at hc
        have hmem : c ∈ rest1 := by
          rw [hp]; exact List.mem_append_right _ (List.mem_cons_of_mem _ hc)
        exact hr c hmem

theorem urlParse_shape (s : GoStr) (u : GoURL) (h : urlParse s = .ok u) :
    ParsedShape u := by
  rw [urlParse] at h
  cases hf : splitFirst '#' s with
  | mk rest0 ofrag =>
    rw [hf] at h
    replace h : (if containsCtl rest0 = true then
        (Except.error URLError.ctlChar : Except URLError GoURL)
      else
        match findScheme rest0 true with
        | .err => .error .missingScheme
        | .noScheme => parseAfterScheme [] rest0 (ofrag.getD [])
        | .found sch rest1 =>
          parseAfterScheme (goToLower sch) rest1 (ofrag.getD [])) =
        .ok u := h
    have hnf : '#' ∉ rest0 := by
      cases ofrag with
      | none =>
        obtain ⟨hp, hnm⟩ := splitFirst_eq_none '#' s rest0 hf
        exact hp ▸ hnm
      | some fr => exact (splitFirst_eq_some '#' s rest0 fr hf).2
    by_cases hctl : containsCtl rest0 = true
    · rw [if_pos hctl] at h
      cases h
    · rw [if_neg hctl] at h
      have hclean : ∀ c ∈ rest0, isCtlChar c = false :=
        (containsCtl_eq_false_iff rest0).mp (by
          revert hctl; cases containsCtl rest0 <;> simp)
      cases hsch : findScheme rest0 true with
      | err => rw [hsch] at h; cases h
      | noScheme =>
        rw [hsch] at h
        refine parseAfterScheme_shape [] rest0 (ofrag.getD []) u
          (by simp) (by intro c s' hcon; cases hcon) rfl ?_ h
        intro c hc
        exact ⟨fun he => hnf (he ▸ hc), hclean c hc⟩
      | found sch rest1 =>
        rw [hsch] at h
        obtain ⟨hdecomp, hchars, hhead⟩ :=
          findScheme_found_spec rest0 true sch rest1 hsch
        refine parseAfterScheme_shape (goToLower sch) rest1 (ofrag.getD []) u
          ?_ ?_ (goToLower_idem sch) ?_ h
        · intro c hc
          simp only [goToLower, List.mem_map] at hc
          obtain ⟨c', hc', hce⟩ := hc
          exact hce ▸ isSchemeChar_goToLowerChar c' (hchars c' hc')
        · intro c sTail hcs
          obtain ⟨c1, t1, hsch1, halpha⟩ := hhead rfl
          rw [hsch1] at hcs
          simp only [goToLower, List.map_cons, List.cons.injEq] at hcs
          exact hcs.1 ▸ isAlphaChar_goToLowerChar c1 halpha
        · intro c hc
          have hmem : c ∈ rest0 := by
            rw [hdecomp]
            exact List.mem_append_right _ (List.mem_cons_of_mem _ hc)
          exact ⟨fun he => hnf (he ▸ hmem), hclean c hmem⟩

/-! ## Re-parsing the path-cleared serialization -/

/-- The pre-query core of `urlString` on a path-cleared URL. -/
def coreCleared (u : GoURL) : GoStr :=
  if !u.opaq.isEmpty then u.opaq
  else if u.host.isEmpty then [] else '/' :: '/' :: u.host

theorem pathEnc_cleared (u : GoURL) : pathEnc { u with path := [] } = [] := by
  simp [pathEnc]

theorem hostEnc_cleared (u : GoURL) :
    hostEnc { u with path := [] } =
      if u.host.isEmpty then [] else '/' :: '/' :: u.host := by
  by_cases hh : u.host.isEmpty = true
  · have he : u.host = [] := List.isEmpty_iff.mp hh
    simp [hostEnc, he]
  · simp [hostEnc, hh]

theorem coreEnc_cleared (u : GoURL) :
    coreEnc { u with path := [] } = coreCleared u := by
  simp [coreEnc, coreCleared, hostEnc_cleared, pathEnc_cleared]

theorem urlString_cleared (u : GoURL) :
    urlString { u with path := [] } =
      schemeEnc u ++ coreCleared u ++ queryEnc u ++ fragEnc u := by
  rw [urlString, coreEnc_cleared]
  rfl

theorem coreCleared_clean (u : GoURL) (W : ParsedShape u) :
    ∀ c ∈ coreCleared u, ¬ c = '?' ∧ ¬ c = '#' ∧ isCtlChar c = false := by
  intro c hc
  rw [coreCleared] at hc
  by_cases ho : (!u.opaq.isEmpty) = true
  · rw [if_pos ho] at hc
    exact W.opaq_clean c hc
  · rw [if_neg ho] at hc
    by_cases hh : u.host.isEmpty = true
    · rw [if_pos hh] at hc
      simp at hc
    · rw [if_neg hh] at hc
      rcases List.mem_cons.mp hc with hc | hc
      · subst hc; exact ⟨by decide, by decide, by decide⟩
      rcases List.mem_cons.mp hc with hc | hc
      · subst hc; exact ⟨by decide, by decide, by decide⟩
      · obtain ⟨_, h2, h3, h4⟩ := W.host_clean c hc
        exact ⟨h2, h3, h4⟩

theorem schemeEnc_clean (u : GoURL) (W : ParsedShape u) :
    ∀ c ∈ schemeEnc u, ¬ c = '#' ∧ isCtlChar c = false := by
  intro c hc
  rw [schemeEnc] at hc
  by_cases hs : u.scheme.isEmpty = true
  · rw [if_pos hs] at hc; simp at hc
  · rw [if_neg hs] at hc
    rcases List.mem_append.mp hc with hc | hc
    · obtain ⟨_, _, _, h4, h5⟩ := isSchemeChar_ne_of c (W.scheme_chars c hc)
      exact ⟨h4, h5⟩
    · rcases List.mem_singleton.mp hc with rfl
      exact ⟨by decide, by decide⟩

theorem queryEnc_clean (u : GoURL) (W : ParsedShape u) :
    ∀ c ∈ queryEnc u, ¬ c = '#' ∧ isCtlChar c = false := by
  intro c hc
  rw [queryEnc] at hc
  by_cases hq : u.rawQuery.isEmpty = true
  · rw [if_pos hq] at hc; simp at hc
  · rw [if_neg hq] at hc
    rcases List.mem_cons.mp hc with hc | hc
    · subst hc; exact ⟨by decide, by decide⟩
    · exact W.query_clean c hc

theorem parseRest_cleared (u : GoURL) (W : ParsedShape u) :
    parseRest u.scheme (coreCleared u) u.rawQuery u.fragment =
      .ok { u with path := [], omitHost := false } := by
  rw [parseRest, coreCleared]
  by_cases ho : (!u.opaq.isEmpty) = true
  · -- rootless (opaque) form: `scheme:opaque?query#frag`
    rw [if_pos ho]
    have hone : u.opaq ≠ [] := by
      intro he
      rw [he] at ho
      simp at ho
    have hnslash : ¬ ("/".toList.isPrefixOf u.opaq = true) := by
      cases hop : u.opaq with
      | nil => exact absurd hop hone
      | cons c t =>
        intro hpre
        have hpre2 : ['/'].isPrefixOf (c :: t) = true := hpre
        simp only [List.isPrefixOf, Bool.and_eq_true, beq_iff_eq] at hpre2
        exact W.opaq_head t (by rw [hop, ← hpre2.1])
    rw [if_neg hnslash]
    have hsne : u.scheme ≠ [] := W.opaq_scheme hone
    have hsb : (!u.scheme.isEmpty) = true := by
      cases hs : u.scheme with
      | nil => exact absurd hs hsne
      | cons c t => simp
    rw [if_pos hsb, W.opaq_host hone]
  · -- non-opaque form
    have hoe : u.opaq = [] := by
      cases hop : u.opaq with
      | nil => rfl
      | cons c t => rw [hop] at ho; simp at ho
    rw [if_neg ho]
    by_cases hh : u.host.isEmpty = true
    · -- no host either: the core is empty
      have hhe : u.host = [] := List.isEmpty_iff.mp hh
      rw [if_pos hh]
      have hnp : ¬ (("/".toList.isPrefixOf ([] : GoStr)) = true) := by decide
      rw [if_neg hnp]
      by_cases hsb : (!u.scheme.isEmpty) = true
      · rw [if_pos hsb, hoe, hhe]
      · rw [if_neg hsb]
        have hcol : ¬ ((((splitFirst '/' ([] : GoStr)).1).contains ':') =
            true) := by decide
        rw [if_neg hcol, hoe, hhe]
    · -- host present: the core is `//host`
      have hhne : u.host ≠ [] := fun he =>
        absurd (List.isEmpty_iff.mpr he) (by simp [hh])
      rw [if_neg hh]
      have hslash2 : '/' ∉ u.host := fun hm =>
        absurd rfl (W.host_clean '/' hm).1
      have hpre : ("/".toList.isPrefixOf ('/' :: '/' :: u.host)) = true := by
        have : ['/'].isPrefixOf ('/' :: '/' :: u.host) = true := by
          simp [List.isPrefixOf]
        exact this
      rw [if_pos hpre]
      have h3 : ("///".toList.isPrefixOf ('/' :: '/' :: u.host)) = false := by
        have h3a : ['/', '/', '/'].isPrefixOf ('/' :: '/' :: u.host) =
            ['/'].isPrefixOf u.host := by
          simp [List.isPrefixOf]
        have h3b : ['/'].isPrefixOf u.host = false := by
          cases hhost : u.host with
          | nil => rfl
          | cons c t =>
            have hcne : ¬ c = '/' := by
              intro he
              apply hslash2
              rw [hhost, he]
              exact List.mem_cons_self _ _
            simp only [List.isPrefixOf, Bool.and_eq_true, Bool.and_eq_false_iff]
            left
            simp only [beq_eq_false_iff_ne, ne_eq]
            exact fun he => hcne he.symm
        exact h3a.trans h3b
      have h2p : ("//".toList.isPrefixOf ('/' :: '/' :: u.host)) = true := by
        have : ['/', '/'].isPrefixOf ('/' :: '/' :: u.host) = true := by
          simp [List.isPrefixOf]
        exact this
      rw [if_pos (by rw [h3, h2p]; simp)]
      have hdrop : ('/' :: '/' :: u.host).drop 2 = u.host := rfl
      rw [hdrop, cutAuthority, splitFirst_of_not_mem '/' u.host hslash2, hoe]

theorem parseAfterScheme_cleared (u : GoURL) (W : ParsedShape u) :
    parseAfterScheme u.scheme (coreCleared u ++ queryEnc u) u.fragment =
      .ok { u with path := [], omitHost := false } := by
  rw [parseAfterScheme]
  have hnq : '?' ∉ coreCleared u := fun hm =>
    absurd rfl ((coreCleared_clean u W '?' hm).1)
  by_cases hq : u.rawQuery.isEmpty = true
  · have hqe : u.rawQuery = [] := List.isEmpty_iff.mp hq
    rw [queryEnc, if_pos hq, List.append_nil,
      splitFirst_of_not_mem '?' _ hnq, hqe]
    have h2 := parseRest_cleared u W
    rw [hqe] at h2
    exact h2
  · rw [queryEnc, if_neg hq, splitFirst_append '?' _ _ hnq]
    exact parseRest_cleared u W

theorem urlParse_eq_of_split (s rest0 : GoStr) (ofrag : Option GoStr)
    (h : splitFirst '#' s = (rest0, ofrag)) :
    urlParse s =
      (if containsCtl rest0 = true then .error .ctlChar
       else
         match findScheme rest0 true with
         | .err => .error .missingScheme
         | .noScheme => parseAfterScheme [] rest0 (ofrag.getD [])
         | .found sch rest1 =>
           parseAfterScheme (goToLower sch) rest1 (ofrag.getD [])) := by
  rw [urlParse, h]

/-- Re-parsing the path-cleared serialization of a parsed URL yields the
same URL with empty path (and no omitted-host marker). -/
theorem urlParse_urlString_cleared (u : GoURL) (W : ParsedShape u) :
    urlParse (urlString { u with path := [] }) =
      .ok { u with path := [], omitHost := false } := by
  have hpre : ∀ c ∈ schemeEnc u ++ coreCleared u ++ queryEnc u,
      ¬ c = '#' ∧ isCtlChar c = false := by
    intro c hc
    rcases List.mem_append.mp hc with hc | hc
    · rcases List.mem_append.mp hc with hc | hc
      · exact schemeEnc_clean u W c hc
      · obtain ⟨_, h2, h3⟩ := coreCleared_clean u W c hc
        exact ⟨h2, h3⟩
    · exact queryEnc_clean u W c hc
  have hnf : '#' ∉ schemeEnc u ++ coreCleared u ++ queryEnc u := fun hm =>
    absurd rfl (hpre '#' hm).1
  obtain ⟨ofrag, hsp, hget⟩ :
      ∃ ofrag, splitFirst '#' (urlString { u with path := [] }) =
        (schemeEnc u ++ coreCleared u ++ queryEnc u, ofrag) ∧
        ofrag.getD [] = u.fragment := by
    by_cases hf : u.fragment.isEmpty = true
    · refine ⟨none, ?_, (List.isEmpty_iff.mp hf).symm⟩
      rw [urlString_cleared, fragEnc, if_pos hf, List.append_nil]
      exact splitFirst_of_not_mem '#' _ hnf
    · refine ⟨some u.fragment, ?_, rfl⟩
      rw [urlString_cleared, fragEnc, if_neg hf]
      exact splitFirst_append '#' _ _ hnf
  rw [urlParse_eq_of_split _ _ _ hsp, hget]
  have hctl :
      containsCtl (schemeEnc u ++ coreCleared u ++ queryEnc u) = false :=
    (containsCtl_eq_false_iff _).mpr (fun c hc => (hpre c hc).2)
  rw [if_neg (by rw [hctl]; exact Bool.false_ne_true)]
  by_cases hsE : u.scheme = []
  · have hse : schemeEnc u = [] := by simp [schemeEnc, hsE]
    rw [hse, List.nil_append]
    have hnos : findScheme (coreCleared u ++ queryEnc u) true = .noScheme := by
      rw [coreCleared]
      by_cases ho2 : (!u.opaq.isEmpty) = true
      · exact absurd hsE
          (W.opaq_scheme (fun he => by rw [he] at ho2; simp at ho2))
      · rw [if_neg ho2]
        by_cases hh : u.host.isEmpty = true
        · rw [if_pos hh, List.nil_append, queryEnc]
          by_cases hq : u.rawQuery.isEmpty = true
          · rw [if_pos hq]; rfl
          · rw [if_neg hq]
            exact findScheme_not_scheme_char '?' _ _ (by decide) (by decide)
              (by decide)
        · rw [if_neg hh, List.cons_append]
          exact findScheme_not_scheme_char '/' _ _ (by decide) (by decide)
            (by decide)
    rw [hnos]
    have hstep : parseAfterScheme [] (coreCleared u ++ queryEnc u)
        u.fragment = parseAfterScheme u.scheme (coreCleared u ++ queryEnc u)
        u.fragment := by rw [hsE]
    rw [hstep]
    exact parseAfterScheme_cleared u W
  · have hexists : ∃ c s, u.scheme = c :: s ∧ isAlphaChar c = true := by
      cases hsc : u.scheme with
      | nil => exact absurd hsc hsE
      | cons a t => exact ⟨a, t, rfl, W.scheme_head a t hsc⟩
    have hfound :
        findScheme (u.scheme ++ ':' :: (coreCleared u ++ queryEnc u)) true =
          .found u.scheme (coreCleared u ++ queryEnc u) :=
      findScheme_of_valid u.scheme _ true W.scheme_chars (fun _ => hexists)
    have hassoc : schemeEnc u ++ coreCleared u ++ queryEnc u =
        u.scheme ++ ':' :: (coreCleared u ++ queryEnc u) := by
      rw [schemeEnc, if_neg (by simp [hsE])]
      simp [List.append_assoc]
    rw [hassoc, hfound]
    show parseAfterScheme (goToLower u.scheme) (coreCleared u ++ queryEnc u)
        u.fragment = _
    rw [W.scheme_lower]
    exact parseAfterScheme_cleared u W

/-! ## Model of `download` (main.go:153-177) -/

/-- An HTTP response as `http.Get` returns it: `http.Get` yields a
response — server error statuses included — and only fails on
transport-level errors. -/
structure HttpResponse where
  statusCode : Nat
  body : List Nat
deriving Repr, DecidableEq

/-- The environment one `download` call runs against: whether `os.Create`
succeeds, what `http.Get` yields (`none` models a transport-level error),
and whether `io.Copy` fails after writing only a prefix of the body. -/
structure DownloadEnv where
  createOk : Bool
  getResult : Option HttpResponse
  copyFailsAfter : Option Nat
deriving Repr, DecidableEq

/-- The errors `download` can return to the pool. -/
inductive DownloadError where
  | fileCreateError
  | getError
  | copyError
deriving Repr, DecidableEq

deriving instance DecidableEq for Except

/-- Result of one `download` run: the returned value (bytes written on
success, as logged at main.go:174) and the bytes landed in the
destination file (`none`: the file was never created). -/
structure DownloadResult where
  outcome : Except DownloadError Nat
  file : Option (List Nat)
deriving Repr, DecidableEq

/-- `download` (main.go:153-177): `os.Create` the destination, `http.Get`
the URL, `io.Copy` the response body into the file.  The response status
code is never inspected, and every failure is returned to the caller —
there is no fatal exit in this function. -/
def download (env : DownloadEnv) : DownloadResult :=
  if !env.createOk then { outcome := .error .fileCreateError, file := none }
  else
    match env.getResult with
    | none => { outcome := .error .getError, file := some [] }
    | some resp =>
      match env.copyFailsAfter with
      | some k =>
        { outcome := .error .copyError, file := some (resp.body.take k) }
      | none =>
        { outcome := .ok resp.body.length, file := some resp.body }

/-- How one Job's run surfaces to the process. -/
inductive JobSurface where
  /-- The task returns; its error, if any, is logged by the pool and the
  process keeps consuming events. -/
  | continueRunning (r : DownloadResult)
  /-- `log.Fatal`: the process terminates. -/
  | processExit
deriving Repr, DecidableEq

/-- The task submitted at main.go:141-143: `return download(fromURL,
toPath)` — the error is handed to the pool, never `log.Fatal`ed. -/
def runDownloadTask (env : DownloadEnv) : JobSurface :=
  .continueRunning (download env)

/-! ## Model of `enqueueDownload` (main.go:139-151) -/

/-- A task in the pool's queue: running it calls `download` with the
values captured at submission time. -/
structure QueuedTask where
  sourceURL : GoStr
  destPath : GoStr
deriving Repr, DecidableEq

/-- `enqueueDownload` (main.go:139-151): spawn a goroutine that submits a
task closing over this call's `fromURL`/`toPath` parameters (which are
per-call, immutable Go strings); the goroutine discards any `QueueTask`
error (`return`), and the function itself returns `nil` unconditionally.
`poolAccepts` models whether `q.QueueTask` succeeds; the second component
is the list of tasks this call actually got into the pool. -/
def enqueueDownload (poolAccepts : Bool) (fromURL toPath : GoStr) :
    Option Unit × List QueuedTask :=
  (none,
    if poolAccepts then [{ sourceURL := fromURL, destPath := toPath }]
    else [])

/-! ## Model of `backoff.Retry` with `NewConstantBackOff(5s)` (main.go:37) -/

/-- What one run of `backoff.Retry` can yield. -/
inductive RetryOutcome (α : Type) where
  /-- The operation succeeded; `elapsedSeconds` is the total delay slept
  before this attempt. -/
  | success (a : α) (elapsedSeconds : Nat)
  /-- The backoff policy returned `Stop`. -/
  | gaveUp
  /-- Observation bound exhausted (the real loop has no such bound and
  would keep retrying). -/
  | outOfFuel
deriving Repr, DecidableEq

/-- Model of `backoff.Retry(op, b)`: run the operation; on failure ask the
policy for the next delay (`none` models `backoff.Stop`), sleep it, and
retry.  `fuel` only bounds how many attempts we observe. -/
def retryLoop (op : Nat → Option α) (next : Nat → Option Nat) :
    Nat → Nat → Nat → RetryOutcome α
  | _, _, 0 => .outOfFuel
  | i, elapsed, fuel + 1 =>
    match op i with
    | some a => .success a elapsed
    | none =>
      match next i with
      | none => .gaveUp
      | some d => retryLoop op next (i + 1) (elapsed + d) fuel

/-- `backoff.NewConstantBackOff(5 * time.Second)`: every delay is 5
seconds and the policy never returns `Stop`. -/
def constantBackOff5 : Nat → Option Nat := fun _ => some 5

/-! ## Model of the Dispatcher (worker pool of size 8, main.go:62-64)

Modelled from the spec: the `golang-queue` pool internals are not part of
this repository's sources, so the Dispatcher contract of spec §4.5 is
modelled as a transition system — submit queues a job, start moves a
pending job to a worker only while fewer than `n` run, finish retires a
running job. -/

structure PoolState where
  pending : List QueuedTask
  running : List QueuedTask
  started : List QueuedTask
  admitted : List QueuedTask
deriving Repr, DecidableEq

def PoolState.init : PoolState := ⟨[], [], [], []⟩

/-- One scheduling step of the pool with `n` workers. -/
inductive PoolStep (n : Nat) : PoolState → PoolState → Prop where
  | submit (s : PoolState) (j : QueuedTask) :
      PoolStep n s { s with pending := s.pending ++ [j],
                            admitted := s.admitted ++ [j] }
  | start (s : PoolState) (j : QueuedTask) (rest : List QueuedTask) :
      s.running.length < n → s.pending = j :: rest →
      PoolStep n s { s with pending := rest, running := j :: s.running,
                            started := s.started ++ [j] }
  | finish (s : PoolState) (j : QueuedTask) :
      j ∈ s.running →
      PoolStep n s { s with running := s.running.erase j }

/-- States the pool can be in after any interleaving of admissions,
starts and completions. -/
def PoolReachable (n : Nat) (s : PoolState) : Prop :=
  Relation.ReflTransGen (PoolStep n) PoolState.init s

theorem poolReachable_running_le (n : Nat) (s : PoolState)
    (h : PoolReachable n s) : s.running.length ≤ n := by
  induction h with
  | refl => simp [PoolState.init]
  | tail hab hbc ih =>
    rename_i b c
    cases hbc with
    | submit j => exact ih
    | start j rest hlt hp => simpa using hlt
    | finish j hj => exact le_trans (List.length_erase_le j b.running) ih

theorem poolReachable_perm (n : Nat) (s : PoolState)
    (h : PoolReachable n s) : (s.started ++ s.pending).Perm s.admitted := by
  induction h with
  | refl => simp [PoolState.init]
  | tail hab hbc ih =>
    rename_i b c
    cases hbc with
    | submit j =>
      show (b.started ++ (b.pending ++ [j])).Perm (b.admitted ++ [j])
      rw [← List.append_assoc]
      exact ih.append_right [j]
    | start j rest hlt hp =>
      show ((b.started ++ [j]) ++ rest).Perm b.admitted
      rw [hp] at ih
      simpa [List.append_assoc] using ih
    | finish j hj => exact ih

theorem pool_drain_running (n : Nat) (r : List QueuedTask) :
    ∀ s : PoolState, s.running = r →
      ∃ s', Relation.ReflTransGen (PoolStep n) s s' ∧ s'.running = [] ∧
        s'.pending = s.pending ∧ s'.started = s.started ∧
        s'.admitted = s.admitted := by
  induction r with
  | nil => intro s hs; exact ⟨s, .refl, hs, rfl, rfl, rfl⟩
  | cons j t ih =>
    intro s hs
    have hstep : PoolStep n s { s with running := s.running.erase j } :=
      .finish s j (by rw [hs]; exact List.mem_cons_self j t)
    have herase : s.running.erase j = t := by
      rw [hs]
      exact List.erase_cons_head j t
    obtain ⟨s', hsteps, h1, h2, h3, h4⟩ :=
      ih { s with running := s.running.erase j } (by simpa using herase)
    exact ⟨s', .head hstep hsteps, h1, h2, h3, h4⟩

theorem pool_drain (n : Nat) (hn : 0 < n) (p : List QueuedTask) :
    ∀ s : PoolState, s.pending = p →
      ∃ s', Relation.ReflTransGen (PoolStep n) s s' ∧ s'.pending = [] ∧
        s'.running = [] ∧ s'.started = s.started ++ s.pending ∧
        s'.admitted = s.admitted := by
  induction p with
  | nil =>
    intro s hs
    obtain ⟨s', h1, h2, h3, h4, h5⟩ := pool_drain_running n s.running s rfl
    exact ⟨s', h1, by rw [h3, hs], h2, by rw [h4, hs, List.append_nil], h5⟩
  | cons j rest ih =>
    intro s hs
    obtain ⟨s1, hst1, hr1, hp1, hstart1, had1⟩ :=
      pool_drain_running n s.running s rfl
    have hlt : s1.running.length < n := by rw [hr1]; simpa using hn
    have hstep2 : PoolStep n s1
        { s1 with pending := rest, running := j :: s1.running,
                  started := s1.started ++ [j] } :=
      .start s1 j rest hlt (by rw [hp1, hs])
    have hstep3 : PoolStep n
        { s1 with pending := rest, running := j :: s1.running,
                  started := s1.started ++ [j] }
        { s1 with pending := rest,
                  running := (j :: s1.running).erase j,
                  started := s1.started ++ [j] } :=
      .finish _ j (List.mem_cons_self j s1.running)
    have herase : (j :: s1.running).erase j = [] := by
      rw [List.erase_cons_head, hr1]
    obtain ⟨s', hst4, hp4, hr4, hs4, ha4⟩ := ih
      { s1 with pending := rest, running := (j :: s1.running).erase j,
                started := s1.started ++ [j] } rfl
    refine ⟨s', hst1.trans (.head hstep2 (.head hstep3 hst4)), hp4, hr4,
      ?_, ?_⟩
    · rw [hs4]
      show (s1.started ++ [j]) ++ rest = s.started ++ s.pending
      rw [hstart1, hs, List.append_assoc]
      rfl
    · rw [ha4]
      exact had1

theorem retryLoop_const_success (j : Nat) (op : Nat → Option Nat)
    (s : Nat) :
    ∀ (i e fuel : Nat), j < fuel → (∀ m, m < j → op (i + m) = none) →
      op (i + j) = some s →
      retryLoop op constantBackOff5 i e fuel = .success s (e + 5 * j) := by
  induction j with
  | zero =>
    intro i e fuel hf hfail hsucc
    cases fuel with
    | zero => omega
    | succ f =>
      rw [retryLoop]
      rw [show i + 0 = i from rfl] at hsucc
      rw [hsucc]
      simp
  | succ j ih =>
    intro i e fuel hf hfail hsucc
    cases fuel with
    | zero => omega
    | succ f =>
      have h0 : op i = none := by
        have := hfail 0 (by omega)
        simpa using this
      rw [retryLoop, h0]
      show retryLoop op constantBackOff5 (i + 1) (e + 5) f = _
      have := ih (i + 1) (e + 5) f (by omega)
        (fun m hm => by
          have := hfail (m + 1) (by omega)
          rw [show i + 1 + m = i + (m + 1) from by omega]
          exact this)
        (by rw [show i + 1 + j = i + (j + 1) from by omega]; exact hsucc)
      rw [this]
      have : e + 5 + 5 * j = e + 5 * (j + 1) := by ring
      rw [this]

theorem retryLoop_const_never_gaveUp (op : Nat → Option Nat) :
    ∀ (i e f : Nat), retryLoop op constantBackOff5 i e f ≠ .gaveUp := by
  intro i e f
  induction f generalizing i e with
  | zero => rw [retryLoop]; intro h; cases h
  | succ f ih =>
    rw [retryLoop]
    cases hop : op i with
    | some a => intro h; cases h
    | none =>
      show retryLoop op constantBackOff5 (i + 1) (e + 5) f ≠ .gaveUp
      exact ih (i + 1) (e + 5)

/-! ## Claim theorems -/

/-- Concrete URL whose query string — but not path — contains
`/range/0-`. -/
def c1cex : GoStr := "https://h/p?x=/range/0-".toList

/-- Claim C1, counterexample: the claim "isAudioURL returns true iff the
path component contains `/range/0-`" is false — for
`https://h/p?x=/range/0-` the substring sits in the query string, the
path is `/p`, and `isAudioURL` still returns true, because the code runs
`strings.Contains` over the whole URL string. -/
theorem c1_path_only_counterexample :
    ¬ (∀ (s : GoStr) (v : GoURL), urlParse s = .ok v →
        (isAudioURL s = true ↔ strContains v.path rangePat = true)) := by
  intro hclaim
  have hparse : urlParse c1cex = .ok
      { scheme := "https".toList, opaq := [], host := "h".toList,
        path := "/p".toList, rawQuery := "x=/range/0-".toList,
        fragment := [], omitHost := false } := by decide
  exact absurd ((hclaim c1cex _ hparse).mp (by decide)) (by decide)

/-- Claim C1, amended: `isAudioURL u` is true iff the literal substring
`/range/0-` occurs anywhere in the whole URL string `u` — path, query
string, host or fragment alike. -/
theorem c1_isAudioURL_iff_contains (u : GoStr) :
    isAudioURL u = true ↔ rangePat <:+: u :=
  strContains_iff_substring u rangePat

/-- Claim C2: for every input that parses as a URL, `toDownloadableURL`
returns a URL string whose path component is empty and whose scheme, host
(including any port) and query string equal those of the input. -/
theorem c2_toDownloadable_clears_path (s : GoStr) (u : GoURL)
    (h : urlParse s = .ok u) :
    ∃ r v, toDownloadableURL s = .ok r ∧ urlParse r = .ok v ∧
      v.path = [] ∧ v.scheme = u.scheme ∧ v.host = u.host ∧
      v.rawQuery = u.rawQuery := by
  refine ⟨urlString { u with path := [] },
    { u with path := [], omitHost := false }, ?_, ?_, rfl, rfl, rfl, rfl⟩
  · rw [toDownloadableURL, h]
  · exact urlParse_urlString_cleared u (urlParse_shape s u h)

/-- Concrete input of spec §8 scenario 1. -/
def c2ex : GoStr := "https://media.example/foo/range/0-1023?id=5".toList

/-- Claim C2, witness: the concrete example of the spec —
`https://media.example/foo/range/0-1023?id=5` maps to
`https://media.example?id=5` — together with the component-preservation
theorem applied at that input. -/
theorem c2_witness :
    toDownloadableURL c2ex = .ok ("https://media.example?id=5".toList) ∧
    (∃ r v, toDownloadableURL c2ex = .ok r ∧ urlParse r = .ok v ∧
      v.path = [] ∧
      v.scheme = "https".toList ∧ v.host = "media.example".toList ∧
      v.rawQuery = "id=5".toList) := by
  constructor
  · decide
  · exact c2_toDownloadable_clears_path c2ex
      { scheme := "https".toList, opaq := [], host := "media.example".toList,
        path := "/foo/range/0-1023".toList, rawQuery := "id=5".toList,
        fragment := [], omitHost := false } (by decide)

/-- Claim C3: with the reference pool size 8, every reachable Dispatcher
state runs at most 8 Jobs simultaneously, every start is backed by an
admission (counts of started plus pending equal counts of admitted, so no
Job is started twice and none invented), and from every reachable state
the pool can drain so that each admitted Job has been started exactly as
often as it was admitted — exactly once for distinct Jobs. -/
theorem c3_dispatcher_bound_and_exactly_once (s : PoolState)
    (h : PoolReachable 8 s) :
    s.running.length ≤ 8 ∧
    (∀ j : QueuedTask,
      s.started.count j + s.pending.count j = s.admitted.count j) ∧
    ∃ s', Relation.ReflTransGen (PoolStep 8) s s' ∧ s'.pending = [] ∧
      s'.running = [] ∧ s'.admitted = s.admitted ∧
      ∀ j : QueuedTask, s'.started.count j = s.admitted.count j := by
  refine ⟨poolReachable_running_le 8 s h, ?_, ?_⟩
  · intro j
    have hp := poolReachable_perm 8 s h
    calc s.started.count j + s.pending.count j
        = (s.started ++ s.pending).count j := (List.count_append ..).symm
      _ = s.admitted.count j := hp.count_eq j
  · obtain ⟨s', h1, h2, h3, h4, h5⟩ := pool_drain 8 (by omega) s.pending s rfl
    refine ⟨s', h1, h2, h3, h5, fun j => ?_⟩
    have hp2 := poolReachable_perm 8 s' (h.trans h1)
    have := hp2.count_eq j
    rw [List.count_append, h2, h5] at this
    simpa using this

/-- Claim C3, witness: the initial pool state is reachable and satisfies
the bound and the exactly-once accounting. -/
theorem c3_witness :
    PoolState.init.running.length ≤ 8 ∧
    (∀ j : QueuedTask, PoolState.init.started.count j +
      PoolState.init.pending.count j = PoolState.init.admitted.count j) ∧
    ∃ s', Relation.ReflTransGen (PoolStep 8) PoolState.init s' ∧
      s'.pending = [] ∧ s'.running = [] ∧
      s'.admitted = PoolState.init.admitted ∧
      ∀ j : QueuedTask,
        s'.started.count j = PoolState.init.admitted.count j :=
  c3_dispatcher_bound_and_exactly_once PoolState.init .refl

/-- Claim C4, counterexample: target paths are not collision-free for
every possible sequence of generated identifiers — if `rand.Int()` yields
the same number twice, two distinct Jobs get the same `DL-` name. -/
theorem c4_collision_counterexample :
    ¬ (∀ (ids : Nat → Nat) (i j : Nat), i ≠ j →
        targetPath (ids i) ≠ targetPath (ids j)) := by
  intro hclaim
  exact hclaim (fun _ => 0) 0 1 (by omega) rfl

/-- Claim C4, amended: two generated `DL-` names collide exactly when the
generated identifiers collide — `targetPath` is injective, so
distinctness of the random identifiers is equivalent to distinctness of
the file names (uniqueness is only as good as `rand.Int()`'s output). -/
theorem c4_targetPath_eq_iff (m n : Nat) :
    targetPath m = targetPath n ↔ m = n :=
  ⟨fun h => targetPath_injective h, fun h => by rw [h]⟩

/-- Environment in which the HTTP GET completes with a server error
status: transport succeeds, status 500, body present. -/
def c5env : DownloadEnv :=
  { createOk := true,
    getResult := some { statusCode := 500, body := [7, 7, 7] },
    copyFailsAfter := none }

/-- Claim C5, counterexample: a Job whose GET returns a server error
status does not produce an error — `http.Get` only fails on transport
errors and `download` never inspects the status code, so the error body
is saved and `bytesWritten` reported as success. -/
theorem c5_server_error_counterexample :
    ¬ (∀ (env : DownloadEnv) (resp : HttpResponse),
        env.createOk = true → env.getResult = some resp →
        500 ≤ resp.statusCode →
        ∃ e, (download env).outcome = .error e) := by
  intro hclaim
  obtain ⟨e, he⟩ := hclaim c5env { statusCode := 500, body := [7, 7, 7] }
    rfl rfl (by decide)
  have hok : (download c5env).outcome = .ok 3 := rfl
  rw [hok] at he
  cases he

/-- Claim C5, amended: `download` reports an error exactly on file-create
failure, transport-level GET failure, or copy failure; a server error
status alone is treated as a successful download of the error body.  In
every case the outcome is returned to the pool — the task never
terminates the process. -/
theorem c5_download_error_characterization (env : DownloadEnv) :
    ((∃ e, (download env).outcome = .error e) ↔
      (env.createOk = false ∨ env.getResult = none ∨
        env.copyFailsAfter ≠ none)) ∧
    runDownloadTask env ≠ .processExit := by
  obtain ⟨cr, get, cp⟩ := env
  refine ⟨?_, by simp [runDownloadTask]⟩
  cases cr with
  | false => simp [download]
  | true =>
    cases get with
    | none => simp [download]
    | some resp =>
      cases cp with
      | none => simp [download]
      | some k => simp [download]

/-- Environment in which the GET fails at transport level. -/
def c5netFailEnv : DownloadEnv :=
  { createOk := true, getResult := none, copyFailsAfter := none }

/-- Claim C5, witness: a transport-level GET failure is reported as an
error and the process keeps running. -/
theorem c5_witness :
    ((∃ e, (download c5netFailEnv).outcome = .error e) ↔
      (c5netFailEnv.createOk = false ∨ c5netFailEnv.getResult = none ∨
        c5netFailEnv.copyFailsAfter ≠ none)) ∧
    runDownloadTask c5netFailEnv ≠ .processExit :=
  c5_download_error_characterization c5netFailEnv

/-- Claim C6: if the connect sequence fails on the first `k` attempts and
succeeds on attempt `k+1`, `backoff.Retry` with the constant 5-second
policy returns the successful session after exactly `5·k` seconds of
accumulated delay — for every `k`, since the constant policy never stops
(there is no maximum attempt count). -/
theorem c6_connector_retry (op : Nat → Option Nat) (k : Nat) (s : Nat)
    (hfail : ∀ i, i < k → op i = none) (hsucc : op k = some s) :
    (∀ fuel, k < fuel →
      retryLoop op constantBackOff5 0 0 fuel = .success s (5 * k)) ∧
    (∀ i e f, retryLoop op constantBackOff5 i e f ≠ .gaveUp) := by
  constructor
  · intro fuel hf
    have := retryLoop_const_success k op s 0 0 fuel hf
      (fun m hm => by simpa using hfail m hm) (by simpa using hsucc)
    simpa using this
  · intro i e f
    exact retryLoop_const_never_gaveUp op i e f

/-- Operation that fails on attempts 0, 1, 2 and succeeds on attempt 3
(spec §8 scenario 4). -/
def c6op : Nat → Option Nat := fun i => if i = 3 then some 42 else none

/-- Claim C6, witness: with three connection-refused attempts, the
connector succeeds on the fourth attempt, 15 seconds (3 delays of 5s)
after the first. -/
theorem c6_witness :
    retryLoop c6op constantBackOff5 0 0 4 = .success 42 (5 * 3) :=
  (c6_connector_retry c6op 3 42 (by decide) (by decide)).1 4 (by omega)

/-- Claim C7: the task `enqueueDownload` submits carries exactly the
call's own `fromURL`/`toPath` values (the closure captures
`enqueueDownload`'s per-call, immutable parameters), and tasks from calls
with different argument pairs are never the same task. -/
theorem c7_enqueue_captures_own_args (accepts : Bool)
    (fromURL toPath : GoStr) :
    (∀ task ∈ (enqueueDownload accepts fromURL toPath).2,
      task.sourceURL = fromURL ∧ task.destPath = toPath) ∧
    (∀ (a2 : Bool) (f2 t2 : GoStr) task task2,
      task ∈ (enqueueDownload accepts fromURL toPath).2 →
      task2 ∈ (enqueueDownload a2 f2 t2).2 →
      (fromURL, toPath) ≠ (f2, t2) → task ≠ task2) := by
  constructor
  · intro task htask
    cases accepts with
    | false => simp [enqueueDownload] at htask
    | true =>
      simp [enqueueDownload] at htask
      rw [htask]
      exact ⟨rfl, rfl⟩
  · intro a2 f2 t2 task task2 h1 h2 hne heq
    cases accepts with
    | false => simp [enqueueDownload] at h1
    | true =>
      cases a2 with
      | false => simp [enqueueDownload] at h2
      | true =>
        simp [enqueueDownload] at h1 h2
        rw [h1, h2] at heq
        injection heq with hs hd
        exact hne (by rw [hs, hd])

/-- Claim C7, witness: a concrete submission carries its own arguments,
and a submission with a different URL is a different task. -/
theorem c7_witness :
    (∀ task ∈ (enqueueDownload true "https://a".toList "DL-1".toList).2,
      task.sourceURL = "https://a".toList ∧
      task.destPath = "DL-1".toList) ∧
    (∀ (a2 : Bool) (f2 t2 : GoStr) task task2,
      task ∈ (enqueueDownload true "https://a".toList "DL-1".toList).2 →
      task2 ∈ (enqueueDownload a2 f2 t2).2 →
      ("https://a".toList, "DL-1".toList) ≠ (f2, t2) → task ≠ task2) :=
  c7_enqueue_captures_own_args true "https://a".toList "DL-1".toList

/-- Claim C8: when file creation succeeds, the GET yields a response with
body of size `B`, and the copy does not fail, `download` writes exactly
those `B` bytes to the destination file and reports `B` bytes written. -/
theorem c8_download_roundtrip (env : DownloadEnv) (resp : HttpResponse)
    (hc : env.createOk = true) (hg : env.getResult = some resp)
    (hcp : env.copyFailsAfter = none) :
    download env =
      { outcome := .ok resp.body.length, file := some resp.body } := by
  rw [download, hc, hg, hcp]
  rfl

/-- Environment serving a fixed 4-byte payload with everything
succeeding. -/
def c8env : DownloadEnv :=
  { createOk := true,
    getResult := some { statusCode := 200, body := [1, 2, 3, 4] },
    copyFailsAfter := none }

/-- Claim C8, witness: a 4-byte payload lands byte-for-byte in the file
with `bytesWritten = 4`. -/
theorem c8_witness :
    download c8env = { outcome := .ok 4, file := some [1, 2, 3, 4] } :=
  c8_download_roundtrip c8env { statusCode := 200, body := [1, 2, 3, 4] }
    rfl rfl rfl

/-- Claim C9: every input that does not parse as a URL makes
`toDownloadableURL` fail with the parse error, and — since the code calls
`log.Fatal` — this failure terminates the whole process (`.fatal`). -/
theorem c9_toDownloadable_fatal (s : GoStr) (e : URLError)
    (h : urlParse s = .error e) : toDownloadableURL s = .fatal e := by
  rw [toDownloadableURL, h]

/-- Claim C9, witness: `":foo"` does not parse ("missing protocol
scheme") and the transformer is fatal on it. -/
theorem c9_witness :
    toDownloadableURL ":foo".toList = .fatal .missingScheme :=
  c9_toDownloadable_fatal ":foo".toList .missingScheme (by decide)

/-- Claim C10: `enqueueDownload` returns `nil` for every input — the
`QueueTask` error is discarded inside the spawned goroutine — so the
caller's error-logging branch can never fire, and when the pool rejects
the submission the job is silently lost. -/
theorem c10_enqueue_returns_nil (accepts : Bool) (fromURL toPath : GoStr) :
    (enqueueDownload accepts fromURL toPath).1 = none ∧
    (accepts = false → (enqueueDownload accepts fromURL toPath).2 = []) := by
  constructor
  · rfl
  · intro h
    rw [enqueueDownload, h]
    rfl

/-- Claim C10, witness: a rejected submission reports no error and admits
no task. -/
theorem c10_witness :
    (enqueueDownload false "u".toList "p".toList).1 = none ∧
    (enqueueDownload false "u".toList "p".toList).2 = [] :=
  ⟨(c10_enqueue_returns_nil false "u".toList "p".toList).1,
    (c10_enqueue_returns_nil false "u".toList "p".toList).2 rfl⟩

end Narr
